import Mathlib

/-!
Verification of the standup-cli commit-log pipeline (src/bin/standup.js).

The JavaScript source is shallowly embedded: strings are modeled as `String`
(`List Char` internally, one `Char` per code point; JS `toUpperCase` /
`toLowerCase` are modeled by the single-character ASCII case maps
`Char.toUpper` / `Char.toLower`, which agree with JS on all ASCII input),
regular-expression matching is compiled to deterministic functional matchers,
JS exceptions become `Except String`, and the external `git` invocation of
`getRepoSummary` is passed in as an `Option String` parameter (`none` models
the call throwing).
-/

set_option maxHeartbeats 1000000

namespace Standup

/-- The JS `\s` character class (WhiteSpace ∪ LineTerminator), which is also
exactly the set stripped by `String.prototype.trim`. -/
def isJsWs (c : Char) : Bool :=
  c = '\t' || c = '\n' || c = '\x0b' || c = '\x0c' || c = '\r' || c = ' ' ||
  c = '\u00a0' || c = '\u1680' || ('\u2000' ≤ c && c ≤ '\u200a') ||
  c = '\u2028' || c = '\u2029' || c = '\u202f' || c = '\u205f' ||
  c = '\u3000' || c = '\ufeff'

/-- JS LineTerminator characters: the characters NOT matched by `.` in a regex. -/
def isLineTerm (c : Char) : Bool :=
  c = '\n' || c = '\r' || c = '\u2028' || c = '\u2029'

/-- The regex character class `[a-zA-Z]`. -/
def isAsciiAlpha (c : Char) : Bool :=
  ('a' ≤ c && c ≤ 'z') || ('A' ≤ c && c ≤ 'Z')

/-- The regex character class `[^)]`. -/
def notRP (c : Char) : Bool := c != ')'

/-- `String.prototype.trim`: strip `isJsWs` characters from both ends. -/
def jsTrimL (l : List Char) : List Char :=
  ((l.dropWhile isJsWs).reverse.dropWhile isJsWs).reverse

/-- `trim` at the `String` level. -/
def jsTrimS (s : String) : String := String.mk (jsTrimL s.data)

/-- `String.prototype.toLowerCase`, modeled per character (exact on ASCII). -/
def jsLowerS (s : String) : String := String.mk (s.data.map Char.toLower)

/-- Output shape of `parseCommitSubject`: `{ type, message }`. -/
structure ParsedSubject where
  type : String
  message : String
deriving DecidableEq

/-- The `([a-zA-Z]+)` head of the subject regex.  The characters after the
type cannot start with a letter (they must be `(`, `!` or `:`), so greedy
matching with backtracking coincides with taking the maximal alpha prefix. -/
def matchType (s : List Char) : Option (List Char × List Char) :=
  let t := s.takeWhile isAsciiAlpha
  if t = [] then none else some (t, s.dropWhile isAsciiAlpha)

/-- The optional `(\(([^)]+)\))?` group.  `[^)]+` cannot cross a `)`, so the
scope is the (nonempty) run of characters strictly before the first `)`;
if the input starts with `(` but the group cannot complete, the whole regex
fails, because `(` can match neither `!` nor `:`. -/
def matchScope : List Char → Option (Option (List Char) × List Char)
  | [] => some (none, [])
  | c :: rest =>
      if c = '(' then
        let inner := rest.takeWhile notRP
        if inner = [] then none
        else
          match rest.dropWhile notRP with
          | d :: tail => if d = ')' then some (some inner, tail) else none
          | [] => none
      else some (none, c :: rest)

/-- The `(!)?:` part: an optional `!` that must be followed by `:`.  If the
next character is `!` but no `:` follows, backtracking cannot help since `!`
is not `:`. -/
def matchBangColon : List Char → Option (List Char)
  | [] => none
  | c :: rest =>
      if c = '!' then
        match rest with
        | d :: rest2 => if d = ':' then some rest2 else none
        | [] => none
      else if c = ':' then some rest else none

/-- The `\s*(.+)$` tail.  Greedy `\s*` first takes the maximal whitespace
prefix; `(.+)$` then needs a nonempty line-terminator-free remainder.  When
the remainder is empty, backtracking gives back exactly one whitespace
character (any shorter `\s*` leaves a remainder ending in that same
character, so only the single-character suffix can ever succeed). -/
def descMatch (rest : List Char) : Option (List Char) :=
  let d := rest.dropWhile isJsWs
  if d = [] then
    match rest.getLast? with
    | none => none
    | some c => if isLineTerm c then none else some [c]
  else if d.all (fun c => !(isLineTerm c)) then some d else none

/-- Deterministic compilation of
`/^([a-zA-Z]+)(\(([^)]+)\))?(!)?:\s*(.+)$/.exec(trimmed)`, returning the
captures `(match[1], match[3], match[5])`. -/
def regexMatch (s : List Char) :
    Option (List Char × Option (List Char) × List Char) := do
  let (ty, r1) ← matchType s
  let (sc, r2) ← matchScope r1
  let r3 ← matchBangColon r2
  let d ← descMatch r3
  pure (ty, sc, d)

/-- `text.replace(/\.$/, '')`: strip exactly one trailing period. -/
def stripPeriodL (l : List Char) : List Char :=
  if l.getLast? = some '.' then l.dropLast else l

/-- `capitalize`: uppercase the first character (empty text is returned as is). -/
def capitalizeL : List Char → List Char
  | [] => []
  | c :: rest => Char.toUpper c :: rest

/-- The `scope + ': '` text prepended to the message when a scope is present. -/
def scTxt : Option (List Char) → List Char
  | none => []
  | some v => v ++ ':' :: ' ' :: []

/-- `parseCommitSubject` (src/bin/standup.js lines 118-131). -/
def parseCommitSubject (subject : String) : ParsedSubject :=
  let trimmed := jsTrimL subject.data
  match regexMatch trimmed with
  | none => ⟨"other", String.mk (capitalizeL (stripPeriodL trimmed))⟩
  | some (ty, sc, d) =>
      ⟨String.mk (ty.map Char.toLower),
       String.mk (scTxt sc ++ capitalizeL (stripPeriodL (jsTrimL d)))⟩

/-- Prepend a character to the first piece of a split result. -/
def consHead (c : Char) : List (List Char) → List (List Char)
  | [] => [[c]]
  | l :: ls => (c :: l) :: ls

/-- `raw.split(/\r?\n/)`: split at every `\n`, consuming one `\r` directly
before it.  A `\r` not followed by `\n` stays in the line, as does a final
trailing `\r`. -/
def splitLinesJs : List Char → List (List Char)
  | [] => [[]]
  | '\r' :: '\n' :: rest => [] :: splitLinesJs rest
  | '\n' :: rest => [] :: splitLinesJs rest
  | c :: rest => consHead c (splitLinesJs rest)

/-- `line.split(sep)` for a single-character separator. -/
def splitOnChar (sep : Char) : List Char → List (List Char)
  | [] => [[]]
  | c :: rest =>
      if c = sep then [] :: splitOnChar sep rest
      else consHead c (splitOnChar sep rest)

/-- The record-boundary marker `'__COMMIT__' + '\x1f'`. -/
def BOUNDARY : List Char := "__COMMIT__\x1f".data

/-- `line.startsWith('__COMMIT__\x1f')` (the marker has 11 characters). -/
def isBoundaryLine (l : List Char) : Bool := l.take 11 = BOUNDARY

/-- `line.split('\x1f', 2)[1]`: the text between the first and second
`\x1f` (or end of line). -/
def afterSep (l : List Char) : List Char :=
  ((l.dropWhile (fun c => c != '\x1f')).drop 1).takeWhile (fun c => c != '\x1f')

/-- One decoded commit record: `{ type, message, files_changed }`. -/
structure Commit where
  type : String
  message : String
  files_changed : Nat
deriving DecidableEq

/-- The fresh record created at a boundary line: the subject is the text
after the separator, trimmed, then classified; `files_changed` starts at 0. -/
def freshCommit (line : List Char) : Commit :=
  let p := parseCommitSubject (String.mk (jsTrimL (afterSep line)))
  ⟨p.type, p.message, 0⟩

/-- `!line.trim()`: the line is blank. -/
def isBlank (l : List Char) : Bool := jsTrimL l = []

/-- `line.split('\t').length`. -/
def statFields (l : List Char) : Nat := (splitOnChar '\t' l).length

/-- The loop body of `parseGitLogWithNumstat` (lines 138-160): `cur` is the
in-progress record (`current`), `acc` the finished records (`commits`). -/
def decodeLoop : List (List Char) → Option Commit → List Commit → List Commit
  | [], cur, acc =>
      match cur with
      | some c => acc ++ [c]
      | none => acc
  | line :: rest, cur, acc =>
      if isBoundaryLine line then
        let acc2 := match cur with
          | some c => acc ++ [c]
          | none => acc
        decodeLoop rest (some (freshCommit line)) acc2
      else if isBlank line then decodeLoop rest cur acc
      else
        match cur with
        | none => decodeLoop rest none acc
        | some c =>
            if 3 ≤ statFields line then
              decodeLoop rest (some ⟨c.type, c.message, c.files_changed + 1⟩) acc
            else decodeLoop rest (some c) acc

/-- `parseGitLogWithNumstat` (lines 138-160). -/
def parseGitLogWithNumstat (raw : String) : List Commit :=
  decodeLoop (splitLinesJs raw.data) none []

/-- `TYPE_ORDER` (lines 11-23). -/
def TYPE_ORDER : List String :=
  ["feat", "fix", "refactor", "perf", "docs", "test", "chore", "build", "ci",
   "style", "other"]

/-- `TYPE_LABELS` (lines 25-37), as the association list of own properties. -/
def TYPE_LABELS : List (String × String) :=
  [("feat", "Features"), ("fix", "Fixes"), ("refactor", "Refactors"),
   ("perf", "Performance"), ("docs", "Docs"), ("test", "Tests"),
   ("chore", "Chores"), ("build", "Build"), ("ci", "CI"), ("style", "Style"),
   ("other", "Other")]

/-- First-match association lookup (JS own-property access). -/
def lookupStr : List (String × String) → String → Option String
  | [], _ => none
  | (k, v) :: rest, t => if k = t then some v else lookupStr rest t

/-- `TYPE_LABELS[t] || 'Other'` (an empty label would also fall back, being
falsy). -/
def labelOf (t : String) : String :=
  match lookupStr TYPE_LABELS t with
  | some s => if s = "" then "Other" else s
  | none => "Other"

/-- The string-of-lowercase-letters-or-underscore keys found on
`Object.prototype`.  `grouped` is a plain object literal, so
`grouped[commit.type]` falls back to these inherited properties when
`commit.type` is not one of the 11 own keys; each of them is truthy but has
no `push` method. -/
def PROTO_KEYS : List String :=
  ["constructor", "hasOwnProperty", "isPrototypeOf", "propertyIsEnumerable",
   "toLocaleString", "toString", "valueOf", "__defineGetter__",
   "__defineSetter__", "__lookupGetter__", "__lookupSetter__", "__proto__"]

/-- The bucket chosen by `const t = grouped[commit.type] ? commit.type :
'other'` followed by `grouped[t].push(...)`: an own key (always a truthy
array) selects itself; an inherited `Object.prototype` property is truthy
but is not an array, so `.push` throws a `TypeError`; any other lookup is
`undefined` (falsy) and falls back to `'other'`. -/
def jsGroupKey (ty : String) : Except String String :=
  if TYPE_ORDER.contains ty then .ok ty
  else if PROTO_KEYS.contains ty then
    .error "TypeError: grouped[t].push is not a function"
  else .ok "other"

/-- The `grouped` object restricted to reads at its own keys. -/
def Buckets := String → List String

def emptyBuckets : Buckets := fun _ => []

/-- `grouped[t].push(m)`. -/
def pushBucket (g : Buckets) (t m : String) : Buckets :=
  fun k => if k = t then g k ++ [m] else g k

/-- The dedup-and-group loop of `summarizeCommits` (lines 198-208):
`seen` is the set of lowercased messages already taken. -/
def summarizeLoop : List Commit → List String → Buckets → Except String Buckets
  | [], _, g => .ok g
  | cm :: rest, seen, g =>
      let key := jsLowerS cm.message
      if seen.contains key then summarizeLoop rest seen g
      else
        match jsGroupKey cm.type with
        | .error e => .error e
        | .ok t => summarizeLoop rest (key :: seen) (pushBucket g t cm.message)

/-- The output loop of `summarizeCommits` (lines 210-216): for each tag of
`TYPE_ORDER` in order, a header line and one `"- "` line per message,
skipping empty buckets. -/
def renderGroups (g : Buckets) : List String :=
  TYPE_ORDER.foldl
    (fun lines t =>
      if g t = [] then lines
      else lines ++ (labelOf t ++ ":") :: (g t).map (fun m => "- " ++ m))
    []

/-- `summarizeCommits` (lines 193-217).  A thrown `TypeError` is modeled by
`Except.error`. -/
def summarizeCommits (commits : List Commit) : Except String (List String) :=
  if commits.isEmpty then .ok ["No commits in the last 24 hours"]
  else
    match summarizeLoop commits [] emptyBuckets with
    | .error e => .error e
    | .ok g => .ok (renderGroups g)

/-- One repository summary (lines 181-187). -/
structure RepoSummary where
  name : String
  path : String
  commits : List Commit
  commit_count : Nat
  files_changed : Nat
deriving DecidableEq

/-- `getRepoSummary` (lines 162-191).  `path.resolve` / `path.basename` are
environment operations, so the resolved absolute path and display name are
parameters; the external `git log` invocation is passed as `gitResult`
(`none` models the call throwing, which the `catch` turns into `null`).
On success the code trims the raw output, decodes it, and sums
`files_changed` with `reduce`. -/
def getRepoSummary (absPath repoName : String) (gitResult : Option String) :
    Option RepoSummary :=
  match gitResult with
  | none => none
  | some raw =>
      let commits := parseGitLogWithNumstat (jsTrimS raw)
      some ⟨repoName, absPath, commits, commits.length,
            commits.foldl (fun sum c => sum + c.files_changed) 0⟩

/-- JS truthiness of the `team` value (`null` and `''` are falsy). -/
def teamVal : Option String → Option String
  | none => none
  | some s => if s = "" then none else some s

/-- The per-repository header pushed by `formatOutput` (lines 226-228). -/
def repoHeaderLine (r : RepoSummary) : String :=
  r.name ++ " (" ++ toString r.commit_count ++ " commits, " ++
    toString r.files_changed ++ " files changed):"

/-- The repo-block loop of `formatOutput` (lines 225-231): header,
summarized commit lines, and a blank separator per repository; a thrown
`TypeError` from `summarizeCommits` propagates. -/
def buildRepoLines : List RepoSummary → Except String (List String)
  | [] => .ok []
  | r :: rest =>
      match summarizeCommits r.commits with
      | .error e => .error e
      | .ok s =>
          match buildRepoLines rest with
          | .error e => .error e
          | .ok tail => .ok (repoHeaderLine r :: s ++ [""] ++ tail)

/-- `repoLines` as assembled by lines 220-234: the `'No repositories
scanned'` sentinel when the summary list is empty, then the repo blocks,
then the trailing blank line is popped. -/
def repoLinesAll (rs : List RepoSummary) : Except String (List String) :=
  match buildRepoLines rs with
  | .error e => .error e
  | .ok blocks =>
      let all := (if rs.isEmpty then ["No repositories scanned"] else []) ++
        blocks
      .ok (if all.getLast? = some "" then all.dropLast else all)

/-- The per-line slack transformation (lines 240-245).  `endsWith(':')`,
`startsWith('- ')` and `slice(2)` are modeled on the character list. -/
def slackLine (l : String) : String :=
  if l = "" then ""
  else if l.data.getLast? == some ':' then "*" ++ l ++ "*"
  else if l.data.take 2 == ['-', ' '] then "- " ++ String.mk (l.data.drop 2)
  else "- " ++ l

/-- `blockers || 'None'`. -/
def blockersOr (b : String) : String := if b = "" then "None" else b

/-- The per-format assembly of `formatOutput` (lines 236-266) from the
already-built repo lines: slack, markdown, and the final (plain) branch
that any other tag falls into. -/
def formatFromLines (rl : List String) (today blockers fmt : String)
    (team : Option String) : List String :=
  if fmt = "slack" then
    (match teamVal team with
     | some t => ["*Team:* " ++ t]
     | none => []) ++
    ["*Yesterday:*"] ++ rl.map slackLine ++
    ["*Today:* " ++ today, "*Blockers:* " ++ blockersOr blockers]
  else if fmt = "markdown" then
    ["### Daily Standup", ""] ++
    (match teamVal team with
     | some t => ["**Team:**", t, ""]
     | none => []) ++
    ["**Yesterday:**"] ++ rl ++
    ["", "**Today:**", today, "", "**Blockers:**", blockersOr blockers]
  else
    (match teamVal team with
     | some t => ["Team: " ++ t]
     | none => []) ++
    ["Yesterday:"] ++ rl ++
    ["Today: " ++ today, "Blockers: " ++ blockersOr blockers]

/-- `formatOutput` (lines 219-267) up to the final `join` with newlines. -/
def formatLines (rs : List RepoSummary) (today blockers fmt : String)
    (team : Option String) : Except String (List String) :=
  match repoLinesAll rs with
  | .error e => .error e
  | .ok rl => .ok (formatFromLines rl today blockers fmt team)

/-- `formatOutput` (lines 219-267), joined with newlines. -/
def formatOutput (rs : List RepoSummary) (today blockers fmt : String)
    (team : Option String) : Except String String :=
  (formatLines rs today blockers fmt team).map (String.intercalate "\n")

/-- `validFormats` (line 378). -/
def validFormats : List String := ["plain", "slack", "markdown"]

/-- JS `a || b` for an optional string against a string default. -/
def jsOrStr (a : Option String) (b : String) : String :=
  match a with
  | some s => if s = "" then b else s
  | none => b

/-- `cli.format || config.format || 'plain'` (line 379). -/
def resolveFormat (cliFormat configFormat : Option String) : String :=
  jsOrStr cliFormat (jsOrStr configFormat "plain")

/-- The observable start of a run of `main`: either an early `process.exit`
or the scan phase reached with a validated format. -/
inductive MainStart where
  | earlyExit (code : Nat)
  | scans (format : String) (repoPaths : List String)
deriving DecidableEq

/-- The control flow of `main` (lines 374-401): resolve the format, reject
it with exit code 1 before anything else if it is not one of
`validFormats`, and only otherwise proceed to scan the repository paths. -/
def mainStart (cliFormat configFormat : Option String)
    (repoPaths : List String) : MainStart :=
  let format := resolveFormat cliFormat configFormat
  if validFormats.contains format then .scans format repoPaths
  else .earlyExit 1

/-! ## Specification-side definitions

These definitions follow the words of the specification, not the code; the
refinement theorems below compare the two. -/

/-- Spec side: a well-formed stat line is non-blank and splits into at
least 3 tab-separated fields (fields = tab count + 1). -/
def specStatLine (l : List Char) : Bool :=
  !(jsTrimL l).isEmpty && 3 ≤ l.count '\t' + 1

/-- Spec side: the record a boundary line contributes, with `filesChanged`
the number of well-formed stat lines in its segment. -/
def specRecord (line : List Char) (seg : List (List Char)) : Commit :=
  let p := parseCommitSubject (String.mk (jsTrimL (afterSep line)))
  ⟨p.type, p.message, (seg.filter specStatLine).length⟩

def notBoundary (l : List Char) : Bool := !(isBoundaryLine l)

theorem len_dropWhile_le {α : Type} (p : α → Bool) (l : List α) :
    (l.dropWhile p).length ≤ l.length := by
  induction l with
  | nil => simp [List.dropWhile]
  | cons a rest ih =>
      rw [List.dropWhile_cons]
      by_cases h : p a
      · rw [if_pos h]
        exact Nat.le_succ_of_le ih
      · rw [if_neg h]

/-- Spec side decoder: one record per boundary line, in input order, whose
`filesChanged` counts the well-formed stat lines strictly between that
boundary and the next one (or the end of input); lines before the first
boundary are dropped. -/
def specDecode : List (List Char) → List Commit
  | [] => []
  | l :: ls =>
      if isBoundaryLine l then
        specRecord l (ls.takeWhile notBoundary) ::
          specDecode (ls.dropWhile notBoundary)
      else specDecode ls
termination_by ls => ls.length
decreasing_by
  · simpa using Nat.lt_succ_of_le (len_dropWhile_le notBoundary ls)
  · simp

/-- Spec side dedup: keep the first record of each case-insensitive message
key, dropping every later record with the same key regardless of type. -/
def dedupFirstByMessage : List Commit → List Commit
  | [] => []
  | cm :: rest =>
      cm :: dedupFirstByMessage
        (rest.filter (fun r => jsLowerS r.message != jsLowerS cm.message))
termination_by l => l.length
decreasing_by
  simpa using Nat.lt_succ_of_le
    (List.length_filter_le (fun r => jsLowerS r.message != jsLowerS cm.message) rest)

/-- Spec side bucket choice: a type outside the closed tag list falls into
`other`. -/
def bucketName (ty : String) : String :=
  if TYPE_ORDER.contains ty then ty else "other"

/-- Spec side buckets: messages of the deduplicated records whose type maps
to tag `t`, in first-seen order. -/
def specBuckets (l : List Commit) : Buckets :=
  fun t =>
    ((dedupFirstByMessage l).filter (fun r => bucketName r.type == t)).map
      (fun r => r.message)

/-- Spec side grouped output. -/
def specRender (l : List Commit) : List String :=
  if l.isEmpty then ["No commits in the last 24 hours"]
  else renderGroups (specBuckets l)

/-- A group header line of the output: it ends in `:` and is not a `"- "`
item line. -/
def isHeaderLine (s : String) : Bool :=
  (s.data.getLast? == some ':') && !(s.data.take 2 == ['-', ' '])

def headerLines (lines : List String) : List String :=
  lines.filter isHeaderLine

/-- The `(` scope `)` part of a decomposed subject. -/
def scPart : Option (List Char) → List Char
  | none => []
  | some v => '(' :: v ++ [')']

/-- The scope constraint of the grammar: when present it is nonempty and
free of `)`. -/
def ScopeOk : Option (List Char) → Prop
  | some v => v ≠ [] ∧ v.all notRP
  | none => True

instance : (sc : Option (List Char)) → Decidable (ScopeOk sc)
  | some v => inferInstanceAs (Decidable (v ≠ [] ∧ v.all notRP))
  | none => inferInstanceAs (Decidable True)

/-- Spec side grammar: `s` decomposes as
`type ++ ( scope )? ++ !? ++ ':' ++ whitespace ++ description` with a
nonempty alphabetic type, a nonempty `)`-free scope when present, and a
nonempty line-terminator-free description. -/
def SubjectGrammar (s ty : List Char) (sc : Option (List Char))
    (desc : List Char) : Prop :=
  ty ≠ [] ∧ ty.all isAsciiAlpha ∧ ScopeOk sc ∧
  ∃ bang ws, (bang = ([] : List Char) ∨ bang = ['!']) ∧ ws.all isJsWs ∧
    desc ≠ [] ∧ desc.all (fun c => !(isLineTerm c)) ∧
    s = ty ++ scPart sc ++ bang ++ ':' :: (ws ++ desc)

/-! ## List helper lemmas -/

theorem tw_append_of_all {α : Type} (p : α → Bool) {xs : List α}
    (ys : List α) (h : ∀ x ∈ xs, p x) :
    (xs ++ ys).takeWhile p = xs ++ ys.takeWhile p := by
  induction xs with
  | nil => simp
  | cons a xs ih =>
      have ha : p a := h a (List.mem_cons_self a xs)
      simp only [List.cons_append, List.takeWhile_cons, ha, if_true]
      rw [ih (fun x hx => h x (List.mem_cons_of_mem a hx))]

theorem dw_append_of_all {α : Type} (p : α → Bool) {xs : List α}
    (ys : List α) (h : ∀ x ∈ xs, p x) :
    (xs ++ ys).dropWhile p = ys.dropWhile p := by
  induction xs with
  | nil => simp
  | cons a xs ih =>
      have ha : p a := h a (List.mem_cons_self a xs)
      simp only [List.cons_append, List.dropWhile_cons, ha, if_true]
      exact ih (fun x hx => h x (List.mem_cons_of_mem a hx))

theorem tw_cons_neg {α : Type} {p : α → Bool} {a : α} (l : List α)
    (h : p a = false) : (a :: l).takeWhile p = [] := by
  simp [List.takeWhile_cons, h]

theorem dw_cons_neg {α : Type} {p : α → Bool} {a : α} (l : List α)
    (h : p a = false) : (a :: l).dropWhile p = a :: l := by
  simp [List.dropWhile_cons, h]

theorem mem_takeWhile_p {α : Type} {p : α → Bool} {l : List α} {x : α}
    (h : x ∈ l.takeWhile p) : p x := by
  induction l with
  | nil => simp [List.takeWhile] at h
  | cons a l ih =>
      rw [List.takeWhile_cons] at h
      by_cases ha : p a
      · simp [ha] at h
        rcases h with h | h
        · rwa [h]
        · exact ih h
      · simp [ha] at h

theorem mem_dropWhile_sub {α : Type} {p : α → Bool} {l : List α} {x : α}
    (h : x ∈ l.dropWhile p) : x ∈ l := by
  induction l with
  | nil => simp [List.dropWhile] at h
  | cons a l ih =>
      rw [List.dropWhile_cons] at h
      by_cases ha : p a
      · simp only [ha, if_true] at h
        exact List.mem_cons_of_mem a (ih h)
      · simp only [ha, if_false] at h
        exact h

theorem dw_eq_nil_all {α : Type} {p : α → Bool} {l : List α}
    (h : l.dropWhile p = []) : ∀ x ∈ l, p x := by
  induction l with
  | nil => simp
  | cons a l ih =>
      rw [List.dropWhile_cons] at h
      by_cases ha : p a
      · simp only [ha, if_true] at h
        intro x hx
        rcases List.mem_cons.mp hx with hx | hx
        · rwa [hx]
        · exact ih h x hx
      · simp [ha] at h

theorem dw_of_all_p {α : Type} {p : α → Bool} {l : List α}
    (h : ∀ x ∈ l, p x) : l.dropWhile p = [] := by
  induction l with
  | nil => simp
  | cons a l ih =>
      have ha : p a := h a (List.mem_cons_self a l)
      rw [List.dropWhile_cons, if_pos ha]
      exact ih (fun x hx => h x (List.mem_cons_of_mem a hx))

theorem dw_idem {α : Type} (p : α → Bool) (l : List α) :
    (l.dropWhile p).dropWhile p = l.dropWhile p := by
  induction l with
  | nil => simp
  | cons a l ih =>
      rw [List.dropWhile_cons]
      by_cases ha : p a
      · simpa [ha] using ih
      · rw [if_neg ha, dw_cons_neg l (by simpa using ha)]

theorem mem_of_getLast? {α : Type} {l : List α} {c : α}
    (h : l.getLast? = some c) : c ∈ l := by
  induction l with
  | nil => simp at h
  | cons a l ih =>
      cases l with
      | nil =>
          simp only [List.getLast?_singleton, Option.some.injEq] at h
          simp [h]
      | cons b l =>
          rw [List.getLast?_cons_cons] at h
          exact List.mem_cons_of_mem a (ih h)

/-! ## Trim lemmas -/

theorem jsTrimL_dropWhile (l : List Char) :
    jsTrimL (l.dropWhile isJsWs) = jsTrimL l := by
  unfold jsTrimL
  rw [dw_idem]

theorem jsTrimL_of_all_ws {l : List Char} (h : ∀ x ∈ l, isJsWs x) :
    jsTrimL l = [] := by
  unfold jsTrimL
  rw [dw_of_all_p h]
  simp

theorem jsTrimL_ws_append {ws : List Char} (l : List Char)
    (h : ∀ x ∈ ws, isJsWs x) : jsTrimL (ws ++ l) = jsTrimL l := by
  unfold jsTrimL
  rw [dw_append_of_all _ _ h]

/-! ## Matcher step lemmas relating the compiled regex to the grammar -/

theorem matchType_eq {ty : List Char} {c : Char} (rest : List Char)
    (hne : ty ≠ []) (hall : ∀ x ∈ ty, isAsciiAlpha x)
    (hc : isAsciiAlpha c = false) :
    matchType (ty ++ c :: rest) = some (ty, c :: rest) := by
  unfold matchType
  rw [tw_append_of_all _ _ hall, tw_cons_neg _ hc,
      dw_append_of_all _ _ hall, dw_cons_neg _ hc]
  simp [hne]

theorem matchType_sound {s ty r : List Char}
    (h : matchType s = some (ty, r)) :
    ty ≠ [] ∧ (∀ x ∈ ty, isAsciiAlpha x) ∧ s = ty ++ r ∧
      (∀ c, r.head? = some c → isAsciiAlpha c = false) := by
  unfold matchType at h
  by_cases he : s.takeWhile isAsciiAlpha = []
  · simp [he] at h
  · simp only [he, if_false, Option.some.injEq, Prod.mk.injEq] at h
    obtain ⟨h1, h2⟩ := h
    subst h1
    subst h2
    refine ⟨he, fun x hx => mem_takeWhile_p hx,
      (List.takeWhile_append_dropWhile isAsciiAlpha s).symm, ?_⟩
    intro c hc
    cases hd : s.dropWhile isAsciiAlpha with
    | nil => simp [hd] at hc
    | cons b l =>
        rw [hd] at hc
        simp only [List.head?_cons, Option.some.injEq] at hc
        subst hc
        have hb := List.head_dropWhile_not isAsciiAlpha s (by simp [hd])
        simpa [hd] using hb

theorem matchScope_some {v : List Char} (tail : List Char) (hv : v ≠ [])
    (hall : ∀ x ∈ v, notRP x) :
    matchScope ('(' :: (v ++ ')' :: tail)) = some (some v, tail) := by
  have hrp : notRP ')' = false := by decide
  simp only [matchScope]
  rw [if_pos trivial]
  rw [show (v ++ ')' :: tail).takeWhile notRP = v by
        rw [tw_append_of_all _ _ hall, tw_cons_neg _ hrp, List.append_nil]]
  rw [if_neg hv, dw_append_of_all _ _ hall, dw_cons_neg _ hrp]
  simp

theorem matchScope_not_lp {c : Char} (rest : List Char) (hc : c ≠ '(') :
    matchScope (c :: rest) = some (none, c :: rest) := by
  simp only [matchScope]
  rw [if_neg hc]

theorem matchScope_sound {s : List Char} {sc : Option (List Char)}
    {r : List Char} (h : matchScope s = some (sc, r)) :
    s = scPart sc ++ r ∧ ScopeOk sc := by
  cases s with
  | nil =>
      simp only [matchScope, Option.some.injEq, Prod.mk.injEq] at h
      obtain ⟨h1, h2⟩ := h
      subst h1
      subst h2
      exact ⟨rfl, trivial⟩
  | cons c rest =>
      by_cases hc : c = '('
      · subst hc
        simp only [matchScope] at h
        rw [if_pos trivial] at h
        by_cases he : rest.takeWhile notRP = []
        · simp [he] at h
        · rw [if_neg he] at h
          cases hd : rest.dropWhile notRP with
          | nil => rw [hd] at h; exact absurd h (by simp)
          | cons d tl =>
              rw [hd] at h
              by_cases hdr : d = ')'
              · subst hdr
                simp only [Option.some.injEq, Prod.mk.injEq, if_true] at h
                obtain ⟨h1, h2⟩ := h
                subst h1
                subst h2
                constructor
                · show '(' :: rest = ('(' :: (rest.takeWhile notRP ++ [')'])) ++ tl
                  have hr : rest = rest.takeWhile notRP ++ ')' :: tl := by
                    conv_lhs =>
                      rw [← List.takeWhile_append_dropWhile (p := notRP)
                            (l := rest)]
                    rw [hd]
                  rw [List.cons_append, List.append_assoc]
                  simpa using hr
                · exact ⟨he, List.all_eq_true.mpr
                    (fun x hx => mem_takeWhile_p hx)⟩
              · simp [hdr] at h
      · rw [matchScope_not_lp rest hc] at h
        simp only [Option.some.injEq, Prod.mk.injEq] at h
        obtain ⟨h1, h2⟩ := h
        subst h1
        subst h2
        exact ⟨rfl, trivial⟩

theorem mbc_bang (rest : List Char) :
    matchBangColon ('!' :: ':' :: rest) = some rest := rfl

theorem mbc_colon {c : Char} (rest : List Char) (hc : c ≠ '!') :
    matchBangColon (c :: rest) = if c = ':' then some rest else none := by
  simp only [matchBangColon]
  rw [if_neg hc]

theorem matchBangColon_sound {s r : List Char}
    (h : matchBangColon s = some r) :
    ∃ bang, (bang = ([] : List Char) ∨ bang = ['!']) ∧
      s = bang ++ ':' :: r := by
  cases s with
  | nil => exact absurd h (by simp [matchBangColon])
  | cons c rest =>
      by_cases hc : c = '!'
      · subst hc
        simp only [matchBangColon] at h
        rw [if_pos trivial] at h
        cases rest with
        | nil => exact absurd h (by simp)
        | cons d rest2 =>
            by_cases hd : d = ':'
            · subst hd
              simp only [Option.some.injEq, if_true] at h
              subst h
              exact ⟨['!'], Or.inr rfl, rfl⟩
            · simp [hd] at h
      · rw [mbc_colon rest hc] at h
        by_cases hcol : c = ':'
        · subst hcol
          rw [if_pos rfl] at h
          simp only [Option.some.injEq] at h
          subst h
          exact ⟨[], Or.inl rfl, rfl⟩
        · rw [if_neg hcol] at h
          exact absurd h (by simp)

theorem descMatch_complete {ws desc : List Char} (hws : ∀ x ∈ ws, isJsWs x)
    (hne : desc ≠ []) (hnt : ∀ x ∈ desc, isLineTerm x = false) :
    ∃ d, descMatch (ws ++ desc) = some d ∧ jsTrimL d = jsTrimL desc := by
  by_cases hd : desc.dropWhile isJsWs = []
  · have hall : ∀ x ∈ desc, isJsWs x := dw_eq_nil_all hd
    have hall2 : ∀ x ∈ ws ++ desc, isJsWs x := by
      intro x hx
      rcases List.mem_append.mp hx with hx | hx
      · exact hws x hx
      · exact hall x hx
    obtain ⟨c, hc⟩ : ∃ c, desc.getLast? = some c :=
      ⟨desc.getLast hne, List.getLast?_eq_getLast desc hne⟩
    have hcd : c ∈ desc := mem_of_getLast? hc
    have hcnt : isLineTerm c = false := hnt c hcd
    refine ⟨[c], ?_, ?_⟩
    · simp only [descMatch]
      rw [dw_of_all_p hall2, if_pos rfl, List.getLast?_append, hc]
      simp [hcnt]
    · rw [jsTrimL_of_all_ws (fun x hx => by
            rw [List.mem_singleton.mp hx]
            exact hall c hcd),
          jsTrimL_of_all_ws hall]
  · refine ⟨desc.dropWhile isJsWs, ?_, jsTrimL_dropWhile desc⟩
    have hda : (desc.dropWhile isJsWs).all (fun c => !(isLineTerm c)) :=
      List.all_eq_true.mpr
        (fun x hx => by simp [hnt x (mem_dropWhile_sub hx)])
    simp only [descMatch]
    rw [dw_append_of_all _ _ hws, if_neg hd, if_pos hda]

theorem descMatch_sound {rest d : List Char} (h : descMatch rest = some d) :
    ∃ ws, (∀ x ∈ ws, isJsWs x) ∧ d ≠ [] ∧ (∀ x ∈ d, isLineTerm x = false) ∧
      rest = ws ++ d := by
  simp only [descMatch] at h
  by_cases hd : rest.dropWhile isJsWs = []
  · rw [hd, if_pos rfl] at h
    cases hlast : rest.getLast? with
    | none => rw [hlast] at h; simp at h
    | some c =>
        rw [hlast] at h
        by_cases hlt : isLineTerm c
        · simp [hlt] at h
        · simp only [if_neg hlt, Option.some.injEq] at h
          subst h
          have hcw : ∀ x ∈ rest, isJsWs x := dw_eq_nil_all hd
          refine ⟨rest.dropLast, ?_, by simp, ?_, ?_⟩
          · intro x hx
            exact hcw x ((List.dropLast_sublist rest).subset hx)
          · intro x hx
            rw [List.mem_singleton.mp hx]
            simpa using hlt
          · exact (List.dropLast_append_getLast? c hlast).symm
  · rw [if_neg hd] at h
    by_cases ha : (rest.dropWhile isJsWs).all (fun c => !(isLineTerm c))
    · rw [if_pos ha] at h
      simp only [Option.some.injEq] at h
      subst h
      refine ⟨rest.takeWhile isJsWs, fun x hx => mem_takeWhile_p hx, hd,
        ?_, (List.takeWhile_append_dropWhile isJsWs rest).symm⟩
      intro x hx
      have := List.all_eq_true.mp ha x hx
      simpa using this
    · rw [if_neg ha] at h
      exact absurd h (by simp)

theorem mbc_colon2 (rest : List Char) :
    matchBangColon (':' :: rest) = some rest := by
  simp [matchBangColon]

theorem regexMatch_eq {s ty r1 r2 r3 d : List Char} {sc : Option (List Char)}
    (h1 : matchType s = some (ty, r1)) (h2 : matchScope r1 = some (sc, r2))
    (h3 : matchBangColon r2 = some r3) (h4 : descMatch r3 = some d) :
    regexMatch s = some (ty, sc, d) := by
  simp [regexMatch, h1, h2, h3, h4]

theorem regexMatch_some_inv {s ty : List Char} {sc : Option (List Char)}
    {d : List Char} (h : regexMatch s = some (ty, sc, d)) :
    ∃ r1 r2 r3, matchType s = some (ty, r1) ∧ matchScope r1 = some (sc, r2) ∧
      matchBangColon r2 = some r3 ∧ descMatch r3 = some d := by
  unfold regexMatch at h
  cases h1 : matchType s with
  | none => rw [h1] at h; simp at h
  | some p =>
      obtain ⟨ty1, r1⟩ := p
      rw [h1] at h
      simp only [Option.bind_eq_bind, Option.some_bind] at h
      cases h2 : matchScope r1 with
      | none => rw [h2] at h; simp at h
      | some q =>
          obtain ⟨sc1, r2⟩ := q
          rw [h2] at h
          simp only [Option.bind_eq_bind, Option.some_bind] at h
          cases h3 : matchBangColon r2 with
          | none => rw [h3] at h; simp at h
          | some r3 =>
              rw [h3] at h
              simp only [Option.bind_eq_bind, Option.some_bind] at h
              cases h4 : descMatch r3 with
              | none => rw [h4] at h; simp at h
              | some d1 =>
                  rw [h4] at h
                  simp only [Option.bind_eq_bind, Option.some_bind,
                    Option.pure_def, Option.some.injEq, Prod.mk.injEq] at h
                  obtain ⟨ha, hb, hc⟩ := h
                  subst ha
                  subst hb
                  subst hc
                  exact ⟨r1, r2, r3, rfl, h2, h3, h4⟩

theorem regexMatch_sound {s ty : List Char} {sc : Option (List Char)}
    {d : List Char} (h : regexMatch s = some (ty, sc, d)) :
    SubjectGrammar s ty sc d := by
  obtain ⟨r1, r2, r3, h1, h2, h3, h4⟩ := regexMatch_some_inv h
  obtain ⟨hne, hallm, hs1, _⟩ := matchType_sound h1
  obtain ⟨hs2, hscv⟩ := matchScope_sound h2
  obtain ⟨bang, hbang, hs3⟩ := matchBangColon_sound h3
  obtain ⟨ws, hws, hdne, hdnt, hs4⟩ := descMatch_sound h4
  refine ⟨hne, List.all_eq_true.mpr hallm, hscv, bang, ws, hbang,
    List.all_eq_true.mpr hws, hdne,
    List.all_eq_true.mpr (fun x hx => by simp [hdnt x hx]), ?_⟩
  rw [hs1, hs2, hs3, hs4]
  simp [List.append_assoc]

theorem regexMatch_complete {s ty : List Char} {sc : Option (List Char)}
    {desc : List Char} (h : SubjectGrammar s ty sc desc) :
    ∃ d, regexMatch s = some (ty, sc, d) ∧ jsTrimL d = jsTrimL desc := by
  obtain ⟨hne, hall, hsc, bang, ws, hbang, hws, hdne, hdnt, hs⟩ := h
  have hallm : ∀ x ∈ ty, isAsciiAlpha x := List.all_eq_true.mp hall
  have hwsm : ∀ x ∈ ws, isJsWs x := List.all_eq_true.mp hws
  have hdntm : ∀ x ∈ desc, isLineTerm x = false := fun x hx => by
    have hh := List.all_eq_true.mp hdnt x hx
    simpa using hh
  obtain ⟨d, hdm, hdt⟩ := descMatch_complete hwsm hdne hdntm
  subst hs
  refine ⟨d, ?_, hdt⟩
  cases sc with
  | none =>
      rcases hbang with rfl | rfl
      · have hEq : ty ++ scPart none ++ [] ++ ':' :: (ws ++ desc) =
            ty ++ ':' :: (ws ++ desc) := by simp [scPart]
        rw [hEq]
        exact regexMatch_eq
          (matchType_eq (ws ++ desc) hne hallm (by decide))
          (matchScope_not_lp (ws ++ desc) (by decide))
          (mbc_colon2 (ws ++ desc)) hdm
      · have hEq : ty ++ scPart none ++ ['!'] ++ ':' :: (ws ++ desc) =
            ty ++ '!' :: ':' :: (ws ++ desc) := by simp [scPart]
        rw [hEq]
        exact regexMatch_eq
          (matchType_eq (':' :: (ws ++ desc)) hne hallm (by decide))
          (matchScope_not_lp (':' :: (ws ++ desc)) (by decide))
          (mbc_bang (ws ++ desc)) hdm
  | some v =>
      obtain ⟨hv, hav⟩ := hsc
      have havm : ∀ x ∈ v, notRP x := List.all_eq_true.mp hav
      rcases hbang with rfl | rfl
      · have hEq : ty ++ scPart (some v) ++ [] ++ ':' :: (ws ++ desc) =
            ty ++ '(' :: (v ++ ')' :: (':' :: (ws ++ desc))) := by
          simp [scPart, List.append_assoc]
        rw [hEq]
        exact regexMatch_eq
          (matchType_eq (v ++ ')' :: (':' :: (ws ++ desc))) hne hallm
            (by decide))
          (matchScope_some (':' :: (ws ++ desc)) hv havm)
          (mbc_colon2 (ws ++ desc)) hdm
      · have hEq : ty ++ scPart (some v) ++ ['!'] ++ ':' :: (ws ++ desc) =
            ty ++ '(' :: (v ++ ')' :: ('!' :: ':' :: (ws ++ desc))) := by
          simp [scPart, List.append_assoc]
        rw [hEq]
        exact regexMatch_eq
          (matchType_eq (v ++ ')' :: ('!' :: ':' :: (ws ++ desc))) hne hallm
            (by decide))
          (matchScope_some ('!' :: ':' :: (ws ++ desc)) hv havm)
          (mbc_bang (ws ++ desc)) hdm

theorem colon_mem_of_grammar {s ty : List Char} {sc : Option (List Char)}
    {desc : List Char} (h : SubjectGrammar s ty sc desc) : ':' ∈ s := by
  obtain ⟨_, _, _, bang, ws, _, _, _, _, hs⟩ := h
  subst hs
  simp

/-- **C1, counterexample**: the claim says the message is prefixed with the
*lowercased* scope, but `parseCommitSubject` reproduces the scope as
written: on `"fix(Auth): do thing"` the message keeps the capital `A`,
while the claim predicts the lowercased `"auth: Do thing"`. -/
theorem c1_scope_not_lowercased :
    parseCommitSubject "fix(Auth): do thing" =
      ⟨"fix", "Auth: Do thing"⟩ ∧
    (parseCommitSubject "fix(Auth): do thing").message ≠
      jsLowerS "Auth" ++ ": " ++ "Do thing" := by
  constructor
  · decide
  · decide

/-- **C1, amended**: for every subject, when the trimmed subject decomposes
per the grammar `type(scope)!: description`, `parseCommitSubject` returns
the lowercased type and the trimmed description with one trailing period
stripped and the first character capitalized, prefixed with `scope + ': '`
with the scope **as written** (not lowercased); otherwise it returns type
`other` and the trimmed subject with one trailing period stripped and the
first character capitalized. -/
theorem c1_parse_subject_amended (s : String) :
    (∀ ty sc desc, SubjectGrammar (jsTrimL s.data) ty sc desc →
      parseCommitSubject s =
        ⟨String.mk (ty.map Char.toLower),
         String.mk (scTxt sc ++ capitalizeL (stripPeriodL (jsTrimL desc)))⟩) ∧
    ((¬ ∃ ty sc desc, SubjectGrammar (jsTrimL s.data) ty sc desc) →
      parseCommitSubject s =
        ⟨"other", String.mk (capitalizeL (stripPeriodL (jsTrimL s.data)))⟩) := by
  constructor
  · intro ty sc desc hg
    obtain ⟨d, hm, ht⟩ := regexMatch_complete hg
    simp only [parseCommitSubject, hm]
    rw [ht]
  · intro hn
    cases hm : regexMatch (jsTrimL s.data) with
    | none => simp only [parseCommitSubject, hm]
    | some t =>
        obtain ⟨ty, sc, d⟩ := t
        exact absurd ⟨ty, sc, d, regexMatch_sound hm⟩ hn

/-- Witness for C1: both branches of the amended theorem applied at
concrete subjects. -/
theorem c1_parse_subject_amended_witness :
    (parseCommitSubject "fix(auth): handle" =
      ⟨String.mk ("fix".data.map Char.toLower),
       String.mk (scTxt (some "auth".data) ++
         capitalizeL (stripPeriodL (jsTrimL "handle".data)))⟩) ∧
    (parseCommitSubject "weird subject line" =
      ⟨"other", String.mk (capitalizeL (stripPeriodL
        (jsTrimL "weird subject line".data)))⟩) := by
  constructor
  · exact (c1_parse_subject_amended "fix(auth): handle").1
      "fix".data (some "auth".data) "handle".data
      ⟨by decide, by decide, by decide, [], [' '], Or.inl rfl, by decide,
       by decide, by decide, by decide⟩
  · exact (c1_parse_subject_amended "weird subject line").2
      (fun hex => by
        obtain ⟨ty, sc, desc, hg⟩ := hex
        exact absurd (colon_mem_of_grammar hg) (by decide))

/-! ## Decoder refinement (C2) -/

theorem consHead_ne_nil (c : Char) (ls : List (List Char)) :
    consHead c ls ≠ [] := by
  cases ls with
  | nil => simp [consHead]
  | cons l rest => simp [consHead]

theorem consHead_length {c : Char} {ls : List (List Char)} (h : ls ≠ []) :
    (consHead c ls).length = ls.length := by
  cases ls with
  | nil => exact absurd rfl h
  | cons l rest => simp [consHead]

theorem splitOnChar_ne_nil (sep : Char) (l : List Char) :
    splitOnChar sep l ≠ [] := by
  cases l with
  | nil => simp [splitOnChar]
  | cons c rest =>
      simp only [splitOnChar]
      by_cases hc : c = sep
      · rw [if_pos hc]
        simp
      · rw [if_neg hc]
        exact consHead_ne_nil c _

theorem splitOnChar_length (sep : Char) (l : List Char) :
    (splitOnChar sep l).length = l.count sep + 1 := by
  induction l with
  | nil => simp [splitOnChar]
  | cons c rest ih =>
      simp only [splitOnChar]
      by_cases hc : c = sep
      · rw [if_pos hc]
        subst hc
        simp only [List.length_cons, ih, List.count_cons_self]
      · rw [if_neg hc, consHead_length (splitOnChar_ne_nil sep rest), ih,
            List.count_cons_of_ne (by simpa using (Ne.symm hc)) rest]

/-- The per-line stat test of the code path coincides with the spec's
well-formed-stat-line predicate on non-blank lines. -/
theorem statFields_count (l : List Char) : statFields l = l.count '\t' + 1 :=
  splitOnChar_length '\t' l

def bumpFiles (c : Commit) (n : Nat) : Commit :=
  ⟨c.type, c.message, c.files_changed + n⟩

theorem bump_fresh (l : List Char) (seg : List (List Char)) :
    bumpFiles (freshCommit l) ((seg.filter specStatLine).length) =
      specRecord l seg := by
  simp [bumpFiles, freshCommit, specRecord]

theorem decodeLoop_some :
    ∀ (ls : List (List Char)) (cur : Commit) (acc : List Commit),
    decodeLoop ls (some cur) acc =
      acc ++ bumpFiles cur
          (((ls.takeWhile notBoundary).filter specStatLine).length) ::
        specDecode (ls.dropWhile notBoundary) := by
  intro ls
  induction ls with
  | nil =>
      intro cur acc
      simp [decodeLoop, specDecode, bumpFiles]
  | cons l rest ih =>
      intro cur acc
      by_cases hb : isBoundaryLine l
      · have hnb : notBoundary l = false := by simp [notBoundary, hb]
        simp only [decodeLoop]
        rw [if_pos hb, tw_cons_neg _ hnb, dw_cons_neg _ hnb, ih]
        simp only [specDecode]
        rw [if_pos hb, bump_fresh]
        simp [bumpFiles]
      · have hnb : notBoundary l = true := by simp [notBoundary, hb]
        rw [List.takeWhile_cons, if_pos hnb, List.dropWhile_cons, if_pos hnb]
        simp only [decodeLoop]
        rw [if_neg hb]
        by_cases hblank : jsTrimL l = []
        · have hstat : specStatLine l = false := by
            simp [specStatLine, List.isEmpty_iff, hblank]
          rw [if_pos (show isBlank l = true by simp [isBlank, hblank])]
          rw [ih, List.filter_cons_of_neg (by simp [hstat])]
        · have hblapos : isBlank l = false := by
            simp [isBlank, hblank]
          rw [if_neg (by simp [hblapos])]
          by_cases hf : 3 ≤ statFields l
          · have hstat : specStatLine l = true := by
              have h2 : 3 ≤ l.count '\t' + 1 := by
                rw [statFields_count] at hf
                exact hf
              simp [specStatLine, List.isEmpty_iff, hblank, h2]
            rw [if_pos hf, ih, List.filter_cons_of_pos (by simp [hstat])]
            simp only [List.length_cons, bumpFiles]
            have : cur.files_changed + 1 +
                ((rest.takeWhile notBoundary).filter specStatLine).length =
                cur.files_changed +
                (((rest.takeWhile notBoundary).filter specStatLine).length
                  + 1) := by omega
            rw [this]
          · have hstat : specStatLine l = false := by
              have h2 : ¬ 3 ≤ l.count '\t' + 1 := by
                rw [statFields_count] at hf
                exact hf
              simp [specStatLine, List.isEmpty_iff, hblank, h2]
            rw [if_neg hf, ih, List.filter_cons_of_neg (by simp [hstat])]

theorem decodeLoop_none :
    ∀ (ls : List (List Char)) (acc : List Commit),
    decodeLoop ls none acc = acc ++ specDecode ls := by
  intro ls
  induction ls with
  | nil => intro acc; simp [decodeLoop, specDecode]
  | cons l rest ih =>
      intro acc
      by_cases hb : isBoundaryLine l
      · simp only [decodeLoop]
        rw [if_pos hb, decodeLoop_some]
        simp only [specDecode]
        rw [if_pos hb, bump_fresh]
      · simp only [decodeLoop]
        rw [if_neg hb]
        simp only [specDecode]
        rw [if_neg hb]
        by_cases hblank : isBlank l
        · rw [if_pos hblank, ih]
        · rw [if_neg hblank, ih]

theorem filter_boundary_dropWhile (rest : List (List Char)) :
    rest.filter isBoundaryLine =
      (rest.dropWhile notBoundary).filter isBoundaryLine := by
  conv_lhs =>
    rw [← List.takeWhile_append_dropWhile notBoundary rest]
  rw [List.filter_append]
  have h : (rest.takeWhile notBoundary).filter isBoundaryLine = [] := by
    rw [List.filter_eq_nil_iff]
    intro a ha
    have hm := mem_takeWhile_p ha
    simp only [notBoundary, Bool.not_eq_true'] at hm
    simp [hm]
  rw [h, List.nil_append]

theorem specDecode_length (lines : List (List Char)) :
    (specDecode lines).length = (lines.filter isBoundaryLine).length := by
  induction lines using specDecode.induct with
  | case1 => simp [specDecode]
  | case2 l ls hb ih =>
      simp only [specDecode]
      rw [if_pos hb, List.filter_cons_of_pos (by simp [hb]),
          List.length_cons, List.length_cons, filter_boundary_dropWhile, ih]
  | case3 l ls hb ih =>
      simp only [specDecode]
      rw [if_neg hb, List.filter_cons_of_neg (by simp [hb]), ih]

/-- **C2**: the decoder emits exactly one record per boundary line, in
input order, with `files_changed` counting the non-blank ≥3-field stat
lines of that record's segment (this is the content of `specDecode`); in
particular the record count equals the boundary-line count, and empty
input yields an empty sequence. -/
theorem c2_decoder_refines_spec (raw : String) :
    parseGitLogWithNumstat raw = specDecode (splitLinesJs raw.data) ∧
    (parseGitLogWithNumstat raw).length =
      ((splitLinesJs raw.data).filter isBoundaryLine).length ∧
    parseGitLogWithNumstat "" = [] := by
  have h1 : parseGitLogWithNumstat raw = specDecode (splitLinesJs raw.data) := by
    unfold parseGitLogWithNumstat
    rw [decodeLoop_none]
    simp
  refine ⟨h1, ?_, by decide⟩
  rw [h1]
  exact specDecode_length _

/-! ## Decoded record type shape (C3) -/

/-- The character class `[a-z]`. -/
def isLowerAlpha (c : Char) : Bool := 'a' ≤ c && c ≤ 'z'

theorem char_le_iff_toNat {a b : Char} : a ≤ b ↔ a.toNat ≤ b.toNat := by
  rw [Char.le_def]
  exact ⟨fun h => h, fun h => h⟩

theorem toNat_charOfNat_valid {n : Nat} (h : n < 55296) :
    (Char.ofNat n).toNat = n := by
  unfold Char.ofNat
  rw [dif_pos]
  · rfl
  · exact Or.inl h

/-- `Char.toLower` sends `[a-zA-Z]` into `[a-z]` (as does JS `toLowerCase`
on ASCII). -/
theorem toLower_lower {c : Char} (h : isAsciiAlpha c = true) :
    isLowerAlpha (Char.toLower c) = true := by
  simp only [isAsciiAlpha, Bool.or_eq_true, Bool.and_eq_true,
    decide_eq_true_eq] at h
  unfold Char.toLower
  rcases h with ⟨h1, h2⟩ | ⟨h1, h2⟩
  · have hn1 : 97 ≤ c.toNat := char_le_iff_toNat.mp h1
    have hn2 : c.toNat ≤ 122 := char_le_iff_toNat.mp h2
    rw [if_neg (by omega)]
    simp only [isLowerAlpha, Bool.and_eq_true, decide_eq_true_eq]
    exact ⟨h1, h2⟩
  · have hn1 : 65 ≤ c.toNat := char_le_iff_toNat.mp h1
    have hn2 : c.toNat ≤ 90 := char_le_iff_toNat.mp h2
    rw [if_pos (by omega)]
    have hv : (Char.ofNat (c.toNat + 32)).toNat = c.toNat + 32 :=
      toNat_charOfNat_valid (by omega)
    simp only [isLowerAlpha, Bool.and_eq_true, decide_eq_true_eq]
    constructor
    · refine char_le_iff_toNat.mpr ?_
      show (97 : Nat) ≤ (Char.ofNat (c.toNat + 32)).toNat
      rw [hv]
      omega
    · refine char_le_iff_toNat.mpr ?_
      show (Char.ofNat (c.toNat + 32)).toNat ≤ (122 : Nat)
      rw [hv]
      omega

/-- Every type produced by the subject parser is `other` or a nonempty
all-lowercase-alphabetic keyword. -/
theorem parse_type_shape (s : String) :
    (parseCommitSubject s).type = "other" ∨
      ((parseCommitSubject s).type ≠ "" ∧
        (parseCommitSubject s).type.data.all isLowerAlpha) := by
  cases hm : regexMatch (jsTrimL s.data) with
  | none =>
      left
      simp only [parseCommitSubject, hm]
  | some t =>
      obtain ⟨ty, sc, d⟩ := t
      right
      obtain ⟨r1, r2, r3, h1, _, _, _⟩ := regexMatch_some_inv hm
      obtain ⟨hne, hall, _, _⟩ := matchType_sound h1
      simp only [parseCommitSubject, hm]
      constructor
      · intro he
        rw [show ("" : String) = String.mk [] from rfl] at he
        have hd : List.map Char.toLower ty = [] := congrArg String.data he
        rw [List.map_eq_nil_iff] at hd
        exact hne hd
      · refine List.all_eq_true.mpr ?_
        intro x hx
        obtain ⟨y, hy, rfl⟩ := List.mem_map.mp hx
        exact toLower_lower (hall y hy)

/-- Shared helper: the decoder loop refines the spec decoder. -/
theorem parse_eq_specDecode (raw : String) :
    parseGitLogWithNumstat raw = specDecode (splitLinesJs raw.data) := by
  unfold parseGitLogWithNumstat
  rw [decodeLoop_none]
  simp

theorem mem_specDecode {lines : List (List Char)} {r : Commit}
    (h : r ∈ specDecode lines) :
    ∃ subj files, r = ⟨(parseCommitSubject subj).type,
      (parseCommitSubject subj).message, files⟩ := by
  induction lines using specDecode.induct with
  | case1 => simp [specDecode] at h
  | case2 l ls hb ih =>
      simp only [specDecode] at h
      rw [if_pos hb] at h
      rcases List.mem_cons.mp h with hr | hr
      · exact ⟨String.mk (jsTrimL (afterSep l)), _, hr⟩
      · exact ih hr
  | case3 l ls hb ih =>
      simp only [specDecode] at h
      rw [if_neg hb] at h
      exact ih h

/-- **C3, counterexample**: a record produced by decoding can carry a type
outside the closed enum: the subject `"foo: bar"` yields type `"foo"`. -/
theorem c3_type_outside_enum :
    parseGitLogWithNumstat "__COMMIT__\x1ffoo: bar" = [⟨"foo", "Bar", 0⟩] ∧
    "foo" ∉ TYPE_ORDER := by
  constructor
  · decide
  · decide

/-- **C3, amended**: every CommitRecord produced by decoding has a type
that is either `other` (unparseable subject) or the lowercased alphabetic
type keyword of the subject — a nonempty string of `[a-z]` characters not
restricted to the ten recognized tags; the closed-enum invariant is not
established at decode time. -/
theorem c3_decoded_type_shape (raw : String) (r : Commit)
    (h : r ∈ parseGitLogWithNumstat raw) :
    r.type = "other" ∨ (r.type ≠ "" ∧ r.type.data.all isLowerAlpha) := by
  rw [parse_eq_specDecode] at h
  obtain ⟨subj, files, rfl⟩ := mem_specDecode h
  exact parse_type_shape subj

/-- Witness for C3: the amended theorem applied at the decoded record of
subject `"foo: bar"`. -/
theorem c3_decoded_type_shape_witness :
    (⟨"foo", "Bar", 0⟩ : Commit).type = "other" ∨
      ((⟨"foo", "Bar", 0⟩ : Commit).type ≠ "" ∧
        (⟨"foo", "Bar", 0⟩ : Commit).type.data.all isLowerAlpha) :=
  c3_decoded_type_shape "__COMMIT__\x1ffoo: bar" ⟨"foo", "Bar", 0⟩
    (by decide)

/-! ## Grouping/dedup refinement (C4, C5, C8, C9) -/

/-- `!seen.has(key)` for a record's dedup key. -/
def notSeen (seen : List String) (r : Commit) : Bool :=
  !(seen.contains (jsLowerS r.message))

/-- Pushing a list of already-deduplicated records into the buckets. -/
def pushAllE : List Commit → Buckets → Except String Buckets
  | [], g => .ok g
  | cm :: rest, g =>
      match jsGroupKey cm.type with
      | .error e => .error e
      | .ok t => pushAllE rest (pushBucket g t cm.message)

theorem filter_notSeen_cons (l : List Commit) (seen : List String)
    (key : String) :
    (l.filter (notSeen seen)).filter
        (fun r => jsLowerS r.message != key) =
      l.filter (notSeen (key :: seen)) := by
  rw [List.filter_filter]
  apply List.filter_congr
  intro r _
  simp only [notSeen, List.contains_cons, Bool.not_or, bne]

/-- The dedup-and-group loop equals pushing the first-occurrence-deduplicated
suffix (records whose key is already in `seen` are dropped). -/
theorem summarizeLoop_spec :
    ∀ (l : List Commit) (seen : List String) (g : Buckets),
    summarizeLoop l seen g =
      pushAllE (dedupFirstByMessage (l.filter (notSeen seen))) g := by
  intro l
  induction l with
  | nil => intro seen g; simp [summarizeLoop, dedupFirstByMessage, pushAllE]
  | cons cm rest ih =>
      intro seen g
      by_cases hs : seen.contains (jsLowerS cm.message)
      · have hns : notSeen seen cm = false := by
          simp only [notSeen, hs, Bool.not_true]
        simp only [summarizeLoop]
        rw [if_pos hs, List.filter_cons_of_neg (by simp [hns]), ih]
      · have hsf : seen.contains (jsLowerS cm.message) = false := by
          cases hc2 : seen.contains (jsLowerS cm.message)
          · rfl
          · exact absurd hc2 hs
        have hns : notSeen seen cm = true := by
          simp only [notSeen, hsf, Bool.not_false]
        simp only [summarizeLoop]
        rw [if_neg hs, List.filter_cons_of_pos (by simp [hns])]
        simp only [dedupFirstByMessage, pushAllE]
        cases hk : jsGroupKey cm.type with
        | error e => rfl
        | ok t =>
            show summarizeLoop rest (jsLowerS cm.message :: seen)
                (pushBucket g t cm.message) =
              pushAllE (dedupFirstByMessage
                ((rest.filter (notSeen seen)).filter
                  (fun r => jsLowerS r.message != jsLowerS cm.message)))
                (pushBucket g t cm.message)
            rw [ih, filter_notSeen_cons]

theorem jsGroupKey_ok {ty t : String} (h : jsGroupKey ty = .ok t) :
    t = bucketName ty := by
  unfold jsGroupKey at h
  by_cases hc : TYPE_ORDER.contains ty
  · rw [if_pos hc] at h
    simp only [Except.ok.injEq] at h
    subst h
    unfold bucketName
    rw [if_pos hc]
  · rw [if_neg hc] at h
    by_cases hp : PROTO_KEYS.contains ty
    · rw [if_pos hp] at h
      exact absurd h (by simp)
    · rw [if_neg hp] at h
      simp only [Except.ok.injEq] at h
      subst h
      unfold bucketName
      rw [if_neg hc]

/-- Successful pushes append each record's message to the bucket chosen by
`bucketName`, preserving order. -/
theorem pushAllE_ok :
    ∀ (ks : List Commit) (g g2 : Buckets), pushAllE ks g = .ok g2 →
    ∀ t, g2 t = g t ++
      (ks.filter (fun r => bucketName r.type == t)).map (fun r => r.message) := by
  intro ks
  induction ks with
  | nil =>
      intro g g2 h t
      simp only [pushAllE, Except.ok.injEq] at h
      subst h
      simp
  | cons cm rest ih =>
      intro g g2 h t
      simp only [pushAllE] at h
      cases hk : jsGroupKey cm.type with
      | error e => rw [hk] at h; exact absurd h (by simp)
      | ok t0 =>
          rw [hk] at h
          have ht0 : t0 = bucketName cm.type := jsGroupKey_ok hk
          subst ht0
          have hrec := ih _ _ h t
          rw [hrec]
          by_cases ht : bucketName cm.type = t
          · rw [List.filter_cons_of_pos (by simp [ht])]
            simp only [List.map_cons, pushBucket]
            rw [if_pos ht.symm]
            simp
          · rw [List.filter_cons_of_neg (by simp [ht])]
            simp only [pushBucket]
            rw [if_neg (fun he => ht he.symm)]

/-- Shared helper: whenever `summarizeCommits` returns (does not throw),
its output is the spec-side grouped rendering built from the
first-occurrence-deduplicated records. -/
theorem summarize_ok_eq {l : List Commit} {out : List String}
    (h : summarizeCommits l = .ok out) : out = specRender l := by
  by_cases he : l.isEmpty
  · unfold summarizeCommits at h
    rw [if_pos he] at h
    simp only [Except.ok.injEq] at h
    subst h
    unfold specRender
    rw [if_pos he]
  · unfold summarizeCommits at h
    rw [if_neg he] at h
    rw [summarizeLoop_spec] at h
    have hfl : l.filter (notSeen []) = l := by
      apply List.filter_eq_self.mpr
      intro r _
      simp [notSeen]
    rw [hfl] at h
    cases hp : pushAllE (dedupFirstByMessage l) emptyBuckets with
    | error e => rw [hp] at h; exact absurd h (by simp)
    | ok g =>
        rw [hp] at h
        simp only [Except.ok.injEq] at h
        subst h
        have hg : g = specBuckets l := by
          funext t
          have := pushAllE_ok _ _ _ hp t
          simpa [emptyBuckets, specBuckets] using this
        rw [hg]
        unfold specRender
        rw [if_neg he]

theorem isHeaderLine_item (m : String) : isHeaderLine ("- " ++ m) = false := by
  simp only [isHeaderLine]
  have hd : ("- " ++ m).data = '-' :: ' ' :: m.data := by
    rw [String.data_append]
    rfl
  rw [hd]
  simp [List.take]

theorem headerLines_append (a b : List String) :
    headerLines (a ++ b) = headerLines a ++ headerLines b := by
  unfold headerLines
  exact List.filter_append a b

theorem headerLines_items (g : Buckets) (t : String) :
    headerLines ((g t).map (fun m => "- " ++ m)) = [] := by
  rw [headerLines, List.filter_eq_nil_iff]
  intro a ha
  obtain ⟨m, _, rfl⟩ := List.mem_map.mp ha
  simp [isHeaderLine_item]

theorem headerLines_renderFold (g : Buckets) :
    ∀ (ts : List String) (init : List String),
    (∀ t ∈ ts, isHeaderLine (labelOf t ++ ":") = true) →
    headerLines (ts.foldl (fun lines t => if g t = [] then lines
        else lines ++ (labelOf t ++ ":") :: (g t).map (fun m => "- " ++ m))
        init) =
      headerLines init ++
        (ts.filter (fun t => !(g t).isEmpty)).map (fun t => labelOf t ++ ":") := by
  intro ts
  induction ts with
  | nil =>
      intro init _
      simp
  | cons t ts ih =>
      intro init hh
      simp only [List.foldl_cons]
      by_cases hg : g t = []
      · rw [if_pos hg, ih _ (fun x hx => hh x (List.mem_cons_of_mem _ hx))]
        have hge : (g t).isEmpty = true := by simp [hg]
        rw [List.filter_cons_of_neg (by simp [hge])]
      · rw [if_neg hg, ih _ (fun x hx => hh x (List.mem_cons_of_mem _ hx))]
        have hge : (!(g t).isEmpty) = true := by
          simp [List.isEmpty_iff, hg]
        rw [List.filter_cons_of_pos (by simp [hge]), headerLines_append]
        have hhd : headerLines ((labelOf t ++ ":") ::
            (g t).map (fun m => "- " ++ m)) = [labelOf t ++ ":"] := by
          rw [headerLines, List.filter_cons_of_pos
            (by simp [hh t (List.mem_cons_self t ts)])]
          have := headerLines_items g t
          rw [headerLines] at this
          rw [this]
        rw [hhd]
        simp

/-- All eleven group headers are well-formed header lines. -/
theorem typeOrder_headers :
    ∀ t ∈ TYPE_ORDER, isHeaderLine (labelOf t ++ ":") = true := by decide

theorem headerLines_render (g : Buckets) :
    headerLines (renderGroups g) =
      (TYPE_ORDER.filter (fun t => !(g t).isEmpty)).map
        (fun t => labelOf t ++ ":") := by
  unfold renderGroups
  rw [headerLines_renderFold g TYPE_ORDER [] typeOrder_headers]
  rfl

theorem dedup_subset :
    ∀ (l : List Commit) (r : Commit), r ∈ dedupFirstByMessage l → r ∈ l := by
  intro l
  induction l using dedupFirstByMessage.induct with
  | case1 => intro r hr; simp [dedupFirstByMessage] at hr
  | case2 cm rest ih =>
      intro r hr
      simp only [dedupFirstByMessage] at hr
      rcases List.mem_cons.mp hr with hr | hr
      · simp [hr]
      · exact List.mem_cons_of_mem cm (List.mem_of_mem_filter (ih r hr))

theorem pushAllE_safe :
    ∀ (ks : List Commit) (g : Buckets),
    (∀ r ∈ ks, TYPE_ORDER.contains r.type) →
    ∃ g2, pushAllE ks g = .ok g2 := by
  intro ks
  induction ks with
  | nil => intro g _; exact ⟨g, rfl⟩
  | cons cm rest ih =>
      intro g hall
      have hk : jsGroupKey cm.type = .ok cm.type := by
        unfold jsGroupKey
        rw [if_pos (hall cm (List.mem_cons_self cm rest))]
      simp only [pushAllE, hk]
      exact ih _ (fun r hr => hall r (List.mem_cons_of_mem cm hr))

/-- When every record's type is one of the eleven own keys, the grouping
loop cannot throw. -/
theorem summarize_total_on_enum (l : List Commit)
    (hall : ∀ r ∈ l, TYPE_ORDER.contains r.type) :
    ∃ out, summarizeCommits l = .ok out := by
  by_cases he : l.isEmpty
  · refine ⟨["No commits in the last 24 hours"], ?_⟩
    unfold summarizeCommits
    rw [if_pos he]
  · unfold summarizeCommits
    rw [if_neg he, summarizeLoop_spec]
    obtain ⟨g2, hg2⟩ := pushAllE_safe (dedupFirstByMessage
      (l.filter (notSeen []))) emptyBuckets
      (fun r hr => hall r (List.mem_of_mem_filter (dedup_subset _ r hr)))
    rw [hg2]
    exact ⟨renderGroups g2, rfl⟩

/-- **C4**: the Grouping/Dedup Formatter keeps only the first record of
each case-insensitive message key and drops every later record with the
same key, even across different types: whenever `summarizeCommits`
returns, its output is the spec-side rendering of
`dedupFirstByMessage` (first-occurrence dedup by lowercased message); in
particular for two records whose messages differ only in case (and whose
types differ), only the first appears in the grouped output. -/
theorem c4_dedup_keeps_first :
    (∀ (l : List Commit) (out : List String),
      summarizeCommits l = .ok out → out = specRender l) ∧
    (∀ l : List Commit, (∀ r ∈ l, TYPE_ORDER.contains r.type) →
      summarizeCommits l = .ok (specRender l)) ∧
    summarizeCommits [⟨"feat", "Fix Login", 0⟩, ⟨"chore", "fix login", 0⟩] =
      .ok ["Features:", "- Fix Login"] := by
  refine ⟨fun l out h => summarize_ok_eq h, ?_, rfl⟩
  intro l hall
  obtain ⟨out, hout⟩ := summarize_total_on_enum l hall
  rw [hout, summarize_ok_eq hout]

/-- Witness for C4: the general dedup equation applied at a concrete pair
of records differing only in message case. -/
theorem c4_dedup_keeps_first_witness :
    (["Features:", "- Fix Login"] : List String) =
      specRender [⟨"feat", "Fix Login", 0⟩, ⟨"chore", "fix login", 0⟩] ∧
    summarizeCommits [⟨"feat", "Fix Login", 0⟩, ⟨"chore", "fix login", 0⟩] =
      .ok (specRender [⟨"feat", "Fix Login", 0⟩, ⟨"chore", "fix login", 0⟩]) :=
  ⟨c4_dedup_keeps_first.1
    [⟨"feat", "Fix Login", 0⟩, ⟨"chore", "fix login", 0⟩]
    ["Features:", "- Fix Login"] rfl,
   c4_dedup_keeps_first.2.1
    [⟨"feat", "Fix Login", 0⟩, ⟨"chore", "fix login", 0⟩] (by decide)⟩

/-- **C5**: the round-trip example: decoding the three example subjects
(with no stat lines) yields the three expected records, and grouping them
yields exactly the six expected output lines. -/
theorem c5_round_trip_example :
    parseGitLogWithNumstat
        "__COMMIT__\x1ffeat: add login\n__COMMIT__\x1ffix(auth): handle null token.\n__COMMIT__\x1fweird subject line" =
      [⟨"feat", "Add login", 0⟩, ⟨"fix", "auth: Handle null token", 0⟩,
       ⟨"other", "Weird subject line", 0⟩] ∧
    summarizeCommits
        [⟨"feat", "Add login", 0⟩, ⟨"fix", "auth: Handle null token", 0⟩,
         ⟨"other", "Weird subject line", 0⟩] =
      .ok ["Features:", "- Add login", "Fixes:", "- auth: Handle null token",
           "Other:", "- Weird subject line"] := by
  constructor
  · decide
  · rfl

/-- **C8**: for every non-empty record list (hence for every permutation
of any record list), when `summarizeCommits` returns, its header lines are
exactly the labels of the non-empty buckets in the fixed `TYPE_ORDER`
display order, and in particular form an order-preserving sublist of the
full fixed label sequence. -/
theorem c8_group_order (l : List Commit) (out : List String) (hne : l ≠ [])
    (h : summarizeCommits l = .ok out) :
    headerLines out =
      (TYPE_ORDER.filter (fun t => !(specBuckets l t).isEmpty)).map
        (fun t => labelOf t ++ ":") ∧
    (headerLines out).Sublist (TYPE_ORDER.map (fun t => labelOf t ++ ":")) := by
  have hout : out = specRender l := summarize_ok_eq h
  have hie : l.isEmpty = false := by
    cases l with
    | nil => exact absurd rfl hne
    | cons a as => rfl
  have h1 : headerLines out =
      (TYPE_ORDER.filter (fun t => !(specBuckets l t).isEmpty)).map
        (fun t => labelOf t ++ ":") := by
    rw [hout]
    unfold specRender
    rw [if_neg (by simp [hie])]
    exact headerLines_render (specBuckets l)
  refine ⟨h1, ?_⟩
  rw [h1]
  exact (List.filter_sublist _).map _

/-- Witness for C8: the theorem applied at a one-record list. -/
theorem c8_group_order_witness :
    headerLines ["Fixes:", "- A"] =
      (TYPE_ORDER.filter
        (fun t => !(specBuckets [⟨"fix", "A", 0⟩] t).isEmpty)).map
        (fun t => labelOf t ++ ":") ∧
    (headerLines ["Fixes:", "- A"]).Sublist
      (TYPE_ORDER.map (fun t => labelOf t ++ ":")) :=
  c8_group_order [⟨"fix", "A", 0⟩] ["Fixes:", "- A"] (by decide) rfl

/-- **C9, code bug**: the claim says a record whose type is any string
outside the fixed tag set lands in the `other` bucket, but for the type
`"constructor"` the JS lookup `grouped[commit.type]` finds the inherited
truthy `Object.prototype.constructor`, and `grouped['constructor'].push`
throws a `TypeError`, aborting the run.  The failing input is reachable:
the subject `"constructor: update deps"` parses to exactly that type. -/
theorem c9_constructor_type_throws :
    summarizeCommits [⟨"constructor", "Update deps", 0⟩] =
      .error "TypeError: grouped[t].push is not a function" ∧
    "constructor" ∉ TYPE_ORDER ∧
    parseCommitSubject "constructor: update deps" =
      ⟨"constructor", "Update deps"⟩ := by
  refine ⟨rfl, by decide, by decide⟩

/-! ## Format validation and rendering (C6, C7, C10) -/

/-- **C6, counterexample**: the renderer itself *does* silently fall back
to the plain rendering for an unrecognized format tag: `formatOutput` with
tag `"xml"` produces exactly the plain output. -/
theorem c6_renderer_falls_back :
    formatOutput [] "t" "" "xml" none = formatOutput [] "t" "" "plain" none ∧
    "xml" ∉ validFormats := by
  exact ⟨rfl, by decide⟩

/-- **C6, amended**: for every format tag outside
`{plain, slack, markdown}`, `main` rejects the run with exit code 1 before
any repository is scanned; the renderer, however, when invoked directly
with such a tag, silently produces the plain rendering — it is only the
prior validation in `main` that keeps that fallback unreachable. -/
theorem c6_format_rejected_before_scan (cliFormat configFormat : Option String)
    (repoPaths : List String)
    (hin : resolveFormat cliFormat configFormat ∉ validFormats) :
    mainStart cliFormat configFormat repoPaths = .earlyExit 1 ∧
    (∀ (rs : List RepoSummary) (today blockers : String)
        (team : Option String),
      formatLines rs today blockers (resolveFormat cliFormat configFormat)
          team =
        formatLines rs today blockers "plain" team) := by
  constructor
  · unfold mainStart
    rw [if_neg (fun hc => hin (List.mem_of_elem_eq_true hc))]
  · intro rs today blockers team
    have h1 : resolveFormat cliFormat configFormat ≠ "slack" := by
      intro he
      rw [he] at hin
      exact hin (by decide)
    have h2 : resolveFormat cliFormat configFormat ≠ "markdown" := by
      intro he
      rw [he] at hin
      exact hin (by decide)
    unfold formatLines
    cases hr : repoLinesAll rs with
    | error e => rfl
    | ok rl =>
        show Except.ok (formatFromLines rl today blockers
            (resolveFormat cliFormat configFormat) team) =
          Except.ok (formatFromLines rl today blockers "plain" team)
        unfold formatFromLines
        rw [if_neg h1, if_neg h2,
            if_neg (show ¬("plain" : String) = "slack" by decide),
            if_neg (show ¬("plain" : String) = "markdown" by decide)]

/-- Witness for C6: the amended theorem applied at the concrete
unrecognized tag `"xml"`. -/
theorem c6_format_rejected_before_scan_witness :
    mainStart (some "xml") none ["/repo"] = .earlyExit 1 ∧
    formatLines [] "t" "" (resolveFormat (some "xml") none) none =
      formatLines [] "t" "" "plain" none := by
  constructor
  · exact (c6_format_rejected_before_scan (some "xml") none ["/repo"]
      (by decide)).1
  · exact (c6_format_rejected_before_scan (some "xml") none ["/repo"]
      (by decide)).2 [] "t" "" none

theorem foldl_files (l : List Commit) :
    ∀ n : Nat, l.foldl (fun sum c => sum + c.files_changed) n =
      n + (l.map (fun c => c.files_changed)).sum := by
  induction l with
  | nil => intro n; simp
  | cons c rest ih =>
      intro n
      simp only [List.foldl_cons, List.map_cons, List.sum_cons, ih]
      omega

theorem files_foldl_eq (l : List Commit) :
    l.foldl (fun sum c => sum + c.files_changed) 0 =
      (l.map (fun c => c.files_changed)).sum := by
  rw [foldl_files]
  omega

/-- **C7**: `getRepoSummary` is a total function of the git outcome: when
the external call throws it returns the `null` skip sentinel, and on
success it returns a summary whose `commits` is the decoded sequence of
the trimmed output, with `commit_count` its length and `files_changed` the
sum of the per-record counts. -/
theorem c7_repo_summary_total (absPath repoName : String) (raw : String) :
    getRepoSummary absPath repoName none = none ∧
    ∃ s, getRepoSummary absPath repoName (some raw) = some s ∧
      s.commits = parseGitLogWithNumstat (jsTrimS raw) ∧
      s.commit_count = s.commits.length ∧
      s.files_changed = (s.commits.map (fun c => c.files_changed)).sum := by
  refine ⟨rfl, ⟨_, rfl, rfl, rfl, ?_⟩⟩
  show (parseGitLogWithNumstat (jsTrimS raw)).foldl
      (fun sum c => sum + c.files_changed) 0 =
    ((parseGitLogWithNumstat (jsTrimS raw)).map
      (fun c => c.files_changed)).sum
  exact files_foldl_eq _

/-- **C10**: for each of the three valid formats, rendering with an empty
repository-summary list succeeds and its Yesterday section is exactly the
single sentinel line `"No repositories scanned"`, prefixed per the
format's line rules (a `"- "` list prefix in slack, verbatim otherwise). -/
theorem c10_empty_scan_sentinel (today blockers : String)
    (team : Option String) :
    formatLines [] today blockers "plain" team =
      .ok ((match teamVal team with
            | some t => ["Team: " ++ t]
            | none => []) ++
           ["Yesterday:", "No repositories scanned", "Today: " ++ today,
            "Blockers: " ++ blockersOr blockers]) ∧
    formatLines [] today blockers "slack" team =
      .ok ((match teamVal team with
            | some t => ["*Team:* " ++ t]
            | none => []) ++
           ["*Yesterday:*", "- No repositories scanned",
            "*Today:* " ++ today, "*Blockers:* " ++ blockersOr blockers]) ∧
    formatLines [] today blockers "markdown" team =
      .ok (["### Daily Standup", ""] ++
           (match teamVal team with
            | some t => ["**Team:**", t, ""]
            | none => []) ++
           ["**Yesterday:**", "No repositories scanned", "", "**Today:**",
            today, "", "**Blockers:**", blockersOr blockers]) := by
  have hstep : ∀ fmt, formatLines [] today blockers fmt team =
      .ok (formatFromLines ["No repositories scanned"] today blockers fmt
        team) := fun fmt => rfl
  have hs : slackLine "No repositories scanned" =
      "- No repositories scanned" := by decide
  refine ⟨?_, ?_, ?_⟩
  · rw [hstep]
    unfold formatFromLines
    rw [if_neg (show ¬("plain" : String) = "slack" by decide),
        if_neg (show ¬("plain" : String) = "markdown" by decide)]
    cases hm : teamVal team with
    | none => rfl
    | some t => rfl
  · rw [hstep]
    unfold formatFromLines
    rw [if_pos rfl]
    simp only [List.map_cons, List.map_nil, hs]
    cases hm : teamVal team with
    | none => rfl
    | some t => rfl
  · rw [hstep]
    unfold formatFromLines
    rw [if_neg (show ¬("markdown" : String) = "slack" by decide),
        if_pos rfl]
    cases hm : teamVal team with
    | none => rfl
    | some t => rfl

end Standup
